import Mathlib

/-!
Shallow embedding of the justified-mosaic layout core of the
Images-Mosaic-Collage repository.  The TypeScript source computes with IEEE
doubles; the embedding uses exact rationals, with the single `Math.sqrt` /
`Math.round` step realised exactly by an integer square-root formula that is
proved below to agree with rounding the real square root.
-/

namespace Mosaic

/-- Aspect-ratio item prepared from one input image source
(source `items` array, lines 37-40). -/
structure Item where
  src : String
  index : ℕ
  ratio : ℚ
deriving DecidableEq

/-- Ephemeral row grouping produced by the partition step (source line 50). -/
structure Row where
  items : List Item
  sumRatio : ℚ
deriving DecidableEq

/-- Per-row positioned item (source `RowLayout` items, lines 83-86). -/
structure RowItem where
  index : ℕ
  src : String
  x : ℚ
  width : ℚ
  height : ℚ
deriving DecidableEq

/-- One laid-out row (source `RowLayout`, lines 83-86). -/
structure RowLayout where
  height : ℚ
  items : List RowItem
deriving DecidableEq

/-- Final per-item geometry (source `layoutItems`, lines 125-132). -/
structure LayoutItem where
  index : ℕ
  src : String
  x : ℚ
  y : ℚ
  width : ℚ
  height : ℚ
deriving DecidableEq

/-- Result record of `computeMosaicLayout` (source lines 159, 162-175). -/
structure LayoutResult where
  items : List LayoutItem
  totalHeight : ℚ
  scale : ℚ
  topOffset : ℚ
  leftOffset : ℚ
deriving DecidableEq

/-- Characters matched by the regex metacharacter dot in JavaScript
(anything except the four line terminators). -/
def regexDotChar (c : Char) : Bool :=
  c ≠ '\n' && c ≠ '\r' && c.toNat ≠ 0x2028 && c.toNat ≠ 0x2029

/-- The literal part of the source regex `picsum\.photos\/` (line 17). -/
def picsumTag : List Char := "picsum.photos/".data

/-- Whether `picsum.photos/` occurs somewhere in `cs` followed only by
dot-matchable characters: the `picsum\.photos\/.*` part of the source regex
applied to the text standing before the `/<w>/<h>` tail. -/
def hasPicsumBefore (cs : List Char) : Bool :=
  cs.tails.any fun t =>
    picsumTag.isPrefixOf t && (t.drop picsumTag.length).all regexDotChar

/-- Numeric value of a decimal digit character. -/
def digitVal (c : Char) : ℕ := c.toNat - 48

/-- Value of a digit list given least-significant digit first. -/
def valLSB (ds : List Char) : ℕ := ds.foldr (fun c n => 10 * n + digitVal c) 0

/-- Value of a digit list given most-significant digit first
(the `parseInt(match[i], 10)` of source lines 19-20). -/
def valMSB (ds : List Char) : ℕ := ds.foldl (fun n c => 10 * n + digitVal c) 0

/-- The anchored tail of the source regex, applied to the reversed string
after the optional trailing slash is stripped: read the trailing digit group
`h`, require a slash, read the digit group `w`, require a slash, and require
`picsum.photos/` (followed by dot-matchable text only) somewhere before. -/
def parsePicsumRev (rev1 : List Char) : Option ℚ :=
  let hDigits := rev1.takeWhile Char.isDigit
  let afterH := rev1.dropWhile Char.isDigit
  if hDigits = [] then none
  else if afterH.head? ≠ some '/' then none
  else
    let rest1 := afterH.tail
    let wDigits := rest1.takeWhile Char.isDigit
    let afterW := rest1.dropWhile Char.isDigit
    if wDigits = [] then none
    else if afterW.head? ≠ some '/' then none
    else if hasPicsumBefore afterW.tail.reverse then
      let w := valLSB wDigits
      let h := valLSB hDigits
      if h = 0 then none else some ((w : ℚ) / (h : ℚ))
    else none

/-- Embedding of `getAspectRatioFromUrl` (source lines 16-22): match
`/picsum\.photos\/.*\/(\d+)\/(\d+)(?:\/)?$/` against `src` and return `w / h`,
or `none` when the pattern fails or `h` is zero.  The match is computed from
the right end of the string: strip one optional trailing slash, then parse
the two trailing slash-delimited digit groups and the required
`picsum.photos/` occurrence before them. -/
def getAspectRatioFromUrl (src : String) : Option ℚ :=
  let rev := src.data.reverse
  parsePicsumRev (if rev.head? = some '/' then rev.tail else rev)

/-- Embedding of one step of the JavaScript `x || y` chain on numbers: a
present, non-zero (truthy) value wins, anything else falls through. -/
def orTruthy (a : Option ℚ) (fallback : ℚ) : ℚ :=
  match a with
  | some v => if v = 0 then fallback else v
  | none => fallback

/-- The ratio priority chain `ratios[src] || getAspectRatioFromUrl(src) || 1.5`
of source line 38. -/
def resolveRatio (ratios : String → Option ℚ) (src : String) : ℚ :=
  orTruthy (ratios src) (orTruthy (getAspectRatioFromUrl src) (3 / 2))

/-- Source lines 37-40: pair every image with its original position and its
resolved aspect ratio. -/
def mkItems (images : List String) (ratios : String → Option ℚ) : List Item :=
  images.enum.map fun p => ⟨p.2, p.1, resolveRatio ratios p.2⟩

/-- Source line 42: total aspect-ratio mass. -/
def totalRatioOf (items : List Item) : ℚ := (items.map Item.ratio).sum

/-- Fuel-driven integer square root by the divide-by-four recurrence.
Structural recursion on the fuel keeps it kernel-computable with
logarithmic depth; `isqrt` supplies enough fuel. -/
def isqrtAux : ℕ → ℕ → ℕ
  | 0, _ => 0
  | fuel + 1, n =>
    if n = 0 then 0
    else
      let r := 2 * isqrtAux fuel (n / 4)
      if (r + 1) * (r + 1) ≤ n then r + 1 else r

/-- Integer square root: the largest `r` with `r * r ≤ n`; its defining
bounds are proved in `isqrt_le` and `lt_isqrt_succ`. -/
def isqrt (n : ℕ) : ℕ := isqrtAux n n

/-- Exact value of `Math.round(Math.sqrt(q))` for a rational `q ≥ 0`,
computed with integer arithmetic; for `q < 0` it returns `0`, which makes the
clamped row count `1` and reproduces the layout the source produces on the
(out-of-contract) `NaN` path.  Agreement with rounding the real square root
is proved in `ratRoundSqrt_eq_round_sqrt`. -/
def ratRoundSqrt (q : ℚ) : ℕ :=
  (isqrt (4 * (q.num.toNat * q.den)) + q.den) / (2 * q.den)

/-- Source lines 46-47: `K = round(sqrt(totalRatio / containerRatio))`
clamped to `[1, itemCount]`. -/
def chooseK (totalRatio containerRatio : ℚ) (itemCount : ℕ) : ℕ :=
  max 1 (min (ratRoundSqrt (totalRatio / containerRatio)) itemCount)

/-- The `items.forEach` accumulation loop of source lines 59-79: `slice` and
`sum` are the running row and its ratio sum, `rows` the rows closed so far. -/
def partitionGo (K : ℕ) (ideal : ℚ) :
    List Item → List Item → ℚ → List Row → List Row
  | [], _, _, rows => rows
  | [item], slice, sum, rows => rows ++ [⟨slice ++ [item], sum + item.ratio⟩]
  | item :: next :: rest, slice, sum, rows =>
      let slice' := slice ++ [item]
      let sum' := sum + item.ratio
      if rows.length < K - 1 ∧ |sum' + next.ratio - ideal| > |sum' - ideal| then
        partitionGo K ideal (next :: rest) [] 0 (rows ++ [⟨slice', sum'⟩])
      else
        partitionGo K ideal (next :: rest) slice' sum' rows

/-- Source lines 50-80: partition the items into (at most) `K` rows. -/
def partitionRows (items : List Item) (K : ℕ) : List Row :=
  if K = 1 then [⟨items, totalRatioOf items⟩]
  else partitionGo K (totalRatioOf items / (K : ℚ)) items [] 0 []

/-- Pair every item with its successor, `none` for the last item.  Used only
by the spec-side re-formulation of the partitioner. -/
def withNext : List Item → List (Item × Option Item)
  | [] => []
  | [a] => [(a, none)]
  | a :: b :: rest => (a, some b) :: withNext (b :: rest)

/-- Modelled from the spec: one step of the section 4.3 forward pass, written
as the pure left-fold step that section 9 prescribes.  The state is
(closed rows, current row, current ratio sum); the last item (no successor)
unconditionally closes the final row, and otherwise the current row closes
exactly when fewer than `K - 1` rows are closed and admitting the successor
would increase the distance from the ideal per-row ratio. -/
def specStep (K : ℕ) (ideal : ℚ) (st : List Row × List Item × ℚ)
    (p : Item × Option Item) : List Row × List Item × ℚ :=
  let closed := st.1
  let cur := st.2.1 ++ [p.1]
  let sum := st.2.2 + p.1.ratio
  match p.2 with
  | none => (closed ++ [⟨cur, sum⟩], [], 0)
  | some nxt =>
      if closed.length < K - 1 ∧ |sum + nxt.ratio - ideal| > |sum - ideal| then
        (closed ++ [⟨cur, sum⟩], [], 0)
      else (closed, cur, sum)

/-- Modelled from the spec: the section 4.3 greedy partition as a left fold
over the items paired with their successors. -/
def specPartition (items : List Item) (K : ℕ) (ideal : ℚ) : List Row :=
  (List.foldl (specStep K ideal) ([], [], 0) (withNext items)).1

/-- The inner placement loop of source lines 97-108: left-to-right placement
with cumulative x offset. -/
def buildRowGo (gap rowHeight : ℚ) : List Item → ℚ → List RowItem
  | [], _ => []
  | it :: rest, x =>
      ⟨it.index, it.src, x, it.ratio * rowHeight, rowHeight⟩
        :: buildRowGo gap rowHeight rest (x + it.ratio * rowHeight + gap)

/-- Source lines 93-108: geometry of one row. -/
def buildRow (containerWidth gap : ℚ) (row : Row) : RowLayout :=
  let availableWidth := containerWidth - ((row.items.length : ℚ) - 1) * gap
  let rowHeight := availableWidth / row.sumRatio
  ⟨rowHeight, buildRowGo gap rowHeight row.items 0⟩

/-- Source lines 113-117 before the stretch: `sumRowHeights + gap *
max(0, rowCount - 1)` (natural subtraction already truncates at zero). -/
def initTotalHeight (rowLayouts : List RowLayout) (gap : ℚ) : ℚ :=
  (rowLayouts.map RowLayout.height).sum + gap * ((rowLayouts.length - 1 : ℕ) : ℚ)

/-- Source lines 113-123: the vertical gap stretch.  Returns the final
`(verticalGap, totalHeight)` pair. -/
def fitVertical (rowLayouts : List RowLayout) (gap containerHeight : ℚ) :
    ℚ × ℚ :=
  let rowSpacingCount : ℕ := rowLayouts.length - 1
  let sumRowHeights := (rowLayouts.map RowLayout.height).sum
  let totalHeight := sumRowHeights + gap * (rowSpacingCount : ℚ)
  if 0 < rowSpacingCount ∧ totalHeight < containerHeight then
    let verticalGap := gap + (containerHeight - totalHeight) / (rowSpacingCount : ℚ)
    (verticalGap, sumRowHeights + verticalGap * (rowSpacingCount : ℚ))
  else (gap, totalHeight)

/-- Source lines 134-143: stack the rows top to bottom, the row y advancing
by `row.height + verticalGap` after each row. -/
def stackRows (verticalGap : ℚ) : List RowLayout → ℚ → List LayoutItem
  | [], _ => []
  | r :: rest, y =>
      r.items.map (fun it => ⟨it.index, it.src, it.x, y, it.width, it.height⟩)
        ++ stackRows verticalGap rest (y + r.height + verticalGap)

/-- Source lines 149-157: uniform shrink when the stacked height overflows the
container, plus centering offsets.  Returns `(scale, topOffset, leftOffset)`. -/
def scaleToFit (totalHeight containerWidth containerHeight : ℚ) : ℚ × ℚ × ℚ :=
  let scale := if containerHeight < totalHeight then containerHeight / totalHeight else 1
  let finalWidth := containerWidth * scale
  let finalHeight := totalHeight * scale
  (scale, (containerHeight - finalHeight) / 2, (containerWidth - finalWidth) / 2)

/-- Embedding of `computeMosaicLayout` (source lines 25-160). -/
def computeMosaicLayout (images : List String) (ratios : String → Option ℚ)
    (containerWidth containerHeight : ℚ) (gap : ℚ) : LayoutResult :=
  if images.length = 0 then ⟨[], 0, 1, 0, 0⟩
  else
    let items := mkItems images ratios
    let totalRatio := totalRatioOf items
    let containerRatio := containerWidth / containerHeight
    let K := chooseK totalRatio containerRatio items.length
    let rows := partitionRows items K
    let rowLayouts := (rows.filter fun r => !r.items.isEmpty).map (buildRow containerWidth gap)
    let fitted := fitVertical rowLayouts gap containerHeight
    let layoutItems := stackRows fitted.1 rowLayouts 0
    let scaled := scaleToFit fitted.2 containerWidth containerHeight
    ⟨layoutItems, fitted.2, scaled.1, scaled.2.1, scaled.2.2⟩

/-- The rows the layout builds for a non-empty input, as a standalone
pipeline stage. -/
def rowsOf (images : List String) (ratios : String → Option ℚ)
    (containerWidth containerHeight : ℚ) : List Row :=
  partitionRows (mkItems images ratios)
    (chooseK (totalRatioOf (mkItems images ratios))
      (containerWidth / containerHeight) (mkItems images ratios).length)

/-- The laid-out rows for a non-empty input, as a standalone pipeline stage. -/
def rowLayoutsOf (images : List String) (ratios : String → Option ℚ)
    (containerWidth containerHeight gap : ℚ) : List RowLayout :=
  ((rowsOf images ratios containerWidth containerHeight).filter
    fun r => !r.items.isEmpty).map (buildRow containerWidth gap)

/-- Pre-scale total height of the arrangement for a non-empty input. -/
def rawTotalHeight (images : List String) (ratios : String → Option ℚ)
    (containerWidth containerHeight gap : ℚ) : ℚ :=
  (fitVertical (rowLayoutsOf images ratios containerWidth containerHeight gap)
    gap containerHeight).2

/-- Pre-scale item geometry of the arrangement for a non-empty input: raw
coordinates before the scale/offset transform. -/
def rawLayoutItems (images : List String) (ratios : String → Option ℚ)
    (containerWidth containerHeight gap : ℚ) : List LayoutItem :=
  stackRows
    (fitVertical (rowLayoutsOf images ratios containerWidth containerHeight gap)
      gap containerHeight).1
    (rowLayoutsOf images ratios containerWidth containerHeight gap) 0

/-- Concatenation of the item sequences of a list of rows. -/
def rowsItemsJoin (rows : List Row) : List Item :=
  (rows.map Row.items).flatten

/-- Cumulative x positions: starting at `x`, each next position advances by
the current width plus the gap. -/
def cumX (gap : ℚ) : List ℚ → ℚ → List ℚ
  | [], _ => []
  | w :: ws, x => x :: cumX gap ws (x + w + gap)

/-- A source string of the shape the URL-ratio regex is after: arbitrary
prefix, the `picsum.photos/` tag, arbitrary middle text, then `/<w>/<h>` and
an optional trailing slash. -/
def mkPicsumSrc (pre mid dw dh : List Char) (trail : Bool) : String :=
  ⟨pre ++ picsumTag ++ mid ++ '/' :: dw ++ '/' :: dh ++
    (if trail then ['/'] else [])⟩

/-! Lemmas about the row partition. -/

theorem partitionGo_join (K : ℕ) (ideal : ℚ) :
    ∀ (rem slice : List Item) (sum : ℚ) (rows : List Row), rem ≠ [] →
      rowsItemsJoin (partitionGo K ideal rem slice sum rows) =
        rowsItemsJoin rows ++ slice ++ rem := by
  intro rem
  induction rem with
  | nil => intro slice sum rows h; exact absurd rfl h
  | cons a rest ih =>
    intro slice sum rows _
    cases rest with
    | nil => simp [partitionGo, rowsItemsJoin]
    | cons b rest2 =>
      simp only [partitionGo]
      split
      · rw [ih _ _ _ (by simp)]
        simp [rowsItemsJoin]
      · rw [ih _ _ _ (by simp)]
        simp

theorem partitionGo_nonempty (K : ℕ) (ideal : ℚ) :
    ∀ (rem slice : List Item) (sum : ℚ) (rows : List Row),
      (∀ r ∈ rows, r.items ≠ []) →
      ∀ r ∈ partitionGo K ideal rem slice sum rows, r.items ≠ [] := by
  intro rem
  induction rem with
  | nil => intro slice sum rows h; simpa [partitionGo] using h
  | cons a rest ih =>
    intro slice sum rows h
    cases rest with
    | nil =>
      intro r hr
      simp only [partitionGo, List.mem_append, List.mem_singleton] at hr
      rcases hr with hr | hr
      · exact h r hr
      · subst hr; simp
    | cons b rest2 =>
      simp only [partitionGo]
      split
      · refine ih _ _ _ ?_
        intro r hr
        simp only [List.mem_append, List.mem_singleton] at hr
        rcases hr with hr | hr
        · exact h r hr
        · subst hr; simp
      · exact ih _ _ _ h

theorem partitionGo_sums (K : ℕ) (ideal : ℚ) :
    ∀ (rem slice : List Item) (sum : ℚ) (rows : List Row),
      sum = (slice.map Item.ratio).sum →
      (∀ r ∈ rows, r.sumRatio = (r.items.map Item.ratio).sum) →
      ∀ r ∈ partitionGo K ideal rem slice sum rows,
        r.sumRatio = (r.items.map Item.ratio).sum := by
  intro rem
  induction rem with
  | nil => intro slice sum rows _ h; simpa [partitionGo] using h
  | cons a rest ih =>
    intro slice sum rows hsum h
    cases rest with
    | nil =>
      intro r hr
      simp only [partitionGo, List.mem_append, List.mem_singleton] at hr
      rcases hr with hr | hr
      · exact h r hr
      · subst hr; simp [hsum]
    | cons b rest2 =>
      simp only [partitionGo]
      split
      · refine ih _ _ _ (by simp) ?_
        intro r hr
        simp only [List.mem_append, List.mem_singleton] at hr
        rcases hr with hr | hr
        · exact h r hr
        · subst hr; simp [hsum]
      · exact ih _ _ _ (by simp [hsum]) h

theorem partitionGo_length (K : ℕ) (ideal : ℚ) (hK : 1 ≤ K) :
    ∀ (rem slice : List Item) (sum : ℚ) (rows : List Row),
      rows.length ≤ K - 1 →
      (partitionGo K ideal rem slice sum rows).length ≤ K := by
  intro rem
  induction rem with
  | nil =>
    intro slice sum rows h
    simp only [partitionGo]
    omega
  | cons a rest ih =>
    intro slice sum rows h
    cases rest with
    | nil =>
      simp only [partitionGo, List.length_append, List.length_singleton]
      omega
    | cons b rest2 =>
      simp only [partitionGo]
      split
      · rename_i hcond
        refine ih _ _ _ ?_
        simp only [List.length_append, List.length_singleton]
        omega
      · exact ih _ _ _ h

theorem foldl_specStep_eq (K : ℕ) (ideal : ℚ) :
    ∀ (rem slice : List Item) (sum : ℚ) (rows : List Row),
      (List.foldl (specStep K ideal) (rows, slice, sum) (withNext rem)).1 =
        partitionGo K ideal rem slice sum rows := by
  intro rem
  induction rem with
  | nil => intro slice sum rows; simp [withNext, partitionGo]
  | cons a rest ih =>
    intro slice sum rows
    cases rest with
    | nil => simp [withNext, partitionGo, specStep]
    | cons b rest2 =>
      simp only [withNext, List.foldl_cons, specStep]
      split
      · rw [ih]
        simp only [partitionGo]
        rw [if_pos (by assumption)]
      · rw [ih]
        simp only [partitionGo]
        rw [if_neg (by assumption)]

/-! Lemmas combining the two partition branches. -/

theorem partitionRows_join (items : List Item) (K : ℕ) :
    rowsItemsJoin (partitionRows items K) = items := by
  unfold partitionRows
  split
  · simp [rowsItemsJoin]
  · cases items with
    | nil => simp [partitionGo, rowsItemsJoin]
    | cons a rest =>
      rw [partitionGo_join _ _ _ _ _ _ (by simp)]
      simp [rowsItemsJoin]

theorem partitionRows_nonempty (items : List Item) (K : ℕ) (h : items ≠ []) :
    ∀ r ∈ partitionRows items K, r.items ≠ [] := by
  unfold partitionRows
  split
  · intro r hr
    simp only [List.mem_singleton] at hr
    subst hr; exact h
  · exact partitionGo_nonempty _ _ _ _ _ _ (by simp)

theorem partitionRows_sums (items : List Item) (K : ℕ) :
    ∀ r ∈ partitionRows items K, r.sumRatio = (r.items.map Item.ratio).sum := by
  unfold partitionRows
  split
  · intro r hr
    simp only [List.mem_singleton] at hr
    subst hr; simp [totalRatioOf]
  · exact partitionGo_sums _ _ _ _ _ _ (by simp) (by simp)

theorem partitionRows_length (items : List Item) (K : ℕ) (hK : 1 ≤ K) :
    (partitionRows items K).length ≤ K := by
  unfold partitionRows
  split
  · simpa using hK
  · exact partitionGo_length _ _ hK _ _ _ _ (by simp)

/-! Lemmas about item preparation. -/

theorem mkItems_map_index (images : List String) (ratios : String → Option ℚ) :
    (mkItems images ratios).map Item.index = List.range images.length := by
  simp only [mkItems, List.map_map]
  have : (Item.index ∘ fun p : ℕ × String => Item.mk p.2 p.1 (resolveRatio ratios p.2)) =
      Prod.fst := rfl
  rw [this, List.enum_map_fst]

theorem mkItems_length (images : List String) (ratios : String → Option ℚ) :
    (mkItems images ratios).length = images.length := by
  simp [mkItems]

/-! The non-empty branch of the layout as a composition of its stages. -/

theorem computeMosaicLayout_eq (images : List String) (ratios : String → Option ℚ)
    (cw ch gap : ℚ) (h : images ≠ []) :
    computeMosaicLayout images ratios cw ch gap =
      ⟨rawLayoutItems images ratios cw ch gap,
       rawTotalHeight images ratios cw ch gap,
       (scaleToFit (rawTotalHeight images ratios cw ch gap) cw ch).1,
       (scaleToFit (rawTotalHeight images ratios cw ch gap) cw ch).2.1,
       (scaleToFit (rawTotalHeight images ratios cw ch gap) cw ch).2.2⟩ := by
  have hlen : ¬ images.length = 0 := by simpa using h
  simp only [computeMosaicLayout, if_neg hlen]
  rfl

/-! Lemmas about per-row geometry. -/

theorem buildRowGo_map_height (gap rh : ℚ) :
    ∀ (its : List Item) (x0 : ℚ),
      (buildRowGo gap rh its x0).map RowItem.height = List.replicate its.length rh := by
  intro its
  induction its with
  | nil => intro x0; simp [buildRowGo]
  | cons a rest ih => intro x0; simp [buildRowGo, ih, List.replicate_succ]

theorem buildRowGo_map_width (gap rh : ℚ) :
    ∀ (its : List Item) (x0 : ℚ),
      (buildRowGo gap rh its x0).map RowItem.width =
        its.map fun it => it.ratio * rh := by
  intro its
  induction its with
  | nil => intro x0; simp [buildRowGo]
  | cons a rest ih => intro x0; simp [buildRowGo, ih]

theorem buildRowGo_map_index (gap rh : ℚ) :
    ∀ (its : List Item) (x0 : ℚ),
      (buildRowGo gap rh its x0).map RowItem.index = its.map Item.index := by
  intro its
  induction its with
  | nil => intro x0; simp [buildRowGo]
  | cons a rest ih => intro x0; simp [buildRowGo, ih]

theorem buildRowGo_map_x (gap rh : ℚ) :
    ∀ (its : List Item) (x0 : ℚ),
      (buildRowGo gap rh its x0).map RowItem.x =
        cumX gap (its.map fun it => it.ratio * rh) x0 := by
  intro its
  induction its with
  | nil => intro x0; simp [buildRowGo, cumX]
  | cons a rest ih => intro x0; simp [buildRowGo, cumX, ih]

theorem buildRowGo_last_extent (gap rh : ℚ) :
    ∀ (its : List Item) (x0 : ℚ), its ≠ [] →
      ((buildRowGo gap rh its x0).map fun it => it.x + it.width).getLast? =
        some (x0 + ((its.map Item.ratio).sum) * rh +
          ((its.length : ℚ) - 1) * gap) := by
  intro its
  induction its with
  | nil => intro x0 h; exact absurd rfl h
  | cons a rest ih =>
    intro x0 _
    cases rest with
    | nil =>
      simp only [buildRowGo, List.map_cons, List.map_nil, List.getLast?_singleton,
        List.map_singleton, List.sum_cons, List.sum_nil, List.length_singleton]
      norm_num
    | cons b rest2 =>
      have hstep :
          ((buildRowGo gap rh (a :: b :: rest2) x0).map fun it => it.x + it.width) =
            (x0 + a.ratio * rh) ::
              ((buildRowGo gap rh (b :: rest2)
                (x0 + a.ratio * rh + gap)).map fun it => it.x + it.width) := by
        simp [buildRowGo]
      rw [hstep, List.getLast?_cons, ih _ (by simp)]
      simp only [Option.getD_some]
      congr 1
      simp only [List.map_cons, List.sum_cons, List.length_cons]
      push_cast
      ring

theorem buildRow_height (cw gap : ℚ) (row : Row) :
    (buildRow cw gap row).height =
      (cw - ((row.items.length : ℚ) - 1) * gap) / row.sumRatio := rfl

theorem buildRow_span (cw gap : ℚ) (row : Row) (hne : row.items ≠ [])
    (hsum : row.sumRatio = (row.items.map Item.ratio).sum)
    (hpos : row.sumRatio ≠ 0) :
    ((buildRow cw gap row).items.map fun it => it.x + it.width).getLast? =
      some cw := by
  show ((buildRowGo gap _ row.items 0).map fun it => it.x + it.width).getLast? = _
  rw [buildRowGo_last_extent _ _ _ _ hne, ← hsum]
  congr 1
  field_simp

/-! Lemmas about vertical stacking and fitting. -/

theorem stackRows_map_index (vg : ℚ) :
    ∀ (rows : List RowLayout) (y : ℚ),
      (stackRows vg rows y).map LayoutItem.index =
        ((rows.map RowLayout.items).flatten).map RowItem.index := by
  intro rows
  induction rows with
  | nil => intro y; simp [stackRows]
  | cons r rest ih => intro y; simp [stackRows, ih, List.map_map]

theorem stackRows_xwh (vg vg' : ℚ) :
    ∀ (rows : List RowLayout) (y y' : ℚ),
      (stackRows vg rows y).map (fun it => (it.x, it.width, it.height)) =
        (stackRows vg' rows y').map (fun it => (it.x, it.width, it.height)) := by
  intro rows
  induction rows with
  | nil => intro y y'; simp [stackRows]
  | cons r rest ih =>
    intro y y'
    simp only [stackRows, List.map_append, List.map_map]
    exact congrArg₂ (· ++ ·) rfl (ih _ _)

theorem fitVertical_eq_of_lt (rL : List RowLayout) (gap ch : ℚ)
    (h1 : 1 < rL.length) (h2 : initTotalHeight rL gap < ch) :
    fitVertical rL gap ch =
      (gap + (ch - initTotalHeight rL gap) / ((rL.length - 1 : ℕ) : ℚ), ch) := by
  have hk : 0 < rL.length - 1 := by omega
  have hkQ : ((rL.length - 1 : ℕ) : ℚ) ≠ 0 := by
    exact_mod_cast Nat.pos_iff_ne_zero.mp hk
  unfold fitVertical
  rw [if_pos ⟨hk, h2⟩]
  refine Prod.ext rfl ?_
  show (rL.map RowLayout.height).sum +
      (gap + (ch - _) / ((rL.length - 1 : ℕ) : ℚ)) * ((rL.length - 1 : ℕ) : ℚ) = ch
  have hle : 1 ≤ rL.length := by omega
  have hkQ2 : ((rL.length : ℚ) - 1) ≠ 0 := by
    have : (1 : ℚ) < (rL.length : ℚ) := by exact_mod_cast h1
    linarith
  simp only [Nat.cast_sub hle, Nat.cast_one]
  field_simp
  ring

theorem fitVertical_le (rL : List RowLayout) (gap ch : ℚ)
    (h : initTotalHeight rL gap ≤ ch) :
    (fitVertical rL gap ch).2 ≤ ch := by
  by_cases hc : 0 < rL.length - 1 ∧
      (rL.map RowLayout.height).sum + gap * ((rL.length - 1 : ℕ) : ℚ) < ch
  · have h1 : 1 < rL.length := by
      have := hc.1
      omega
    rw [fitVertical_eq_of_lt rL gap ch h1 hc.2]
  · unfold fitVertical
    rw [if_neg hc]
    exact h

theorem flatten_buildRow_index (cw gap : ℚ) :
    ∀ rows : List Row,
      ((((rows.map (buildRow cw gap)).map RowLayout.items).flatten).map
          RowItem.index) =
        (rowsItemsJoin rows).map Item.index := by
  intro rows
  induction rows with
  | nil => simp [rowsItemsJoin]
  | cons r rest ih =>
    simp only [List.map_cons, List.flatten_cons, List.map_append, ih, rowsItemsJoin]
    have hhead : (buildRow cw gap r).items.map RowItem.index =
        r.items.map Item.index := buildRowGo_map_index _ _ _ _
    rw [hhead]

theorem rows_filter_nonempty (rows : List Row) (h : ∀ r ∈ rows, r.items ≠ []) :
    rows.filter (fun r => !r.items.isEmpty) = rows := by
  rw [List.filter_eq_self]
  intro r hr
  simpa using h r hr

/-- C1: for every non-empty input list of `n` images, any ratios mapping and
container dimensions and gap satisfying the preconditions, the `items` of
`computeMosaicLayout` carry exactly the index values `0 .. n-1`, each exactly
once and in increasing order. -/
theorem c1_index_coverage (images : List String) (ratios : String → Option ℚ)
    (cw ch gap : ℚ) (hne : images ≠ []) (hcw : 0 < cw) (hch : 0 < ch)
    (hgap : 0 ≤ gap) :
    (computeMosaicLayout images ratios cw ch gap).items.map LayoutItem.index =
      List.range images.length := by
  rw [computeMosaicLayout_eq _ _ _ _ _ hne]
  show (rawLayoutItems images ratios cw ch gap).map LayoutItem.index = _
  unfold rawLayoutItems rowLayoutsOf rowsOf
  rw [stackRows_map_index]
  have hmne : mkItems images ratios ≠ [] := by
    have := mkItems_length images ratios
    intro hcontra
    rw [hcontra] at this
    simp at this
    exact hne (List.length_eq_zero.mp this.symm)
  rw [rows_filter_nonempty _ (partitionRows_nonempty _ _ hmne)]
  rw [flatten_buildRow_index, partitionRows_join, mkItems_map_index]

/-- C1 witness at a concrete input. -/
theorem c1_index_coverage_witness :
    (["a", "b", "c"] : List String) ≠ [] ∧ (0 : ℚ) < 400 ∧ (0 : ℚ) < 300 ∧
      (0 : ℚ) ≤ 2 ∧
      (computeMosaicLayout ["a", "b", "c"] (fun _ => none) 400 300 2).items.map
          LayoutItem.index =
        List.range (["a", "b", "c"] : List String).length :=
  ⟨by decide, by decide, by decide, by decide,
    c1_index_coverage ["a", "b", "c"] (fun _ => none) 400 300 2 (by decide)
      (by decide) (by decide) (by decide)⟩

/-- C2: the partition is a single all-item row when `K = 1`; for `K ≥ 2` it
equals the spec's forward pass with its exact closing rule (fewer than
`K - 1` rows closed so far and admitting the next item would increase the
distance to the ideal per-row ratio sum, with the final row absorbing all
remaining items), and the resulting rows cover the items exactly once, in
order, are non-empty, and number at most `K`. -/
theorem c2_partition (items items1 : List Item) (K : ℕ) (hK : 2 ≤ K) :
    partitionRows items1 1 = [⟨items1, totalRatioOf items1⟩] ∧
    partitionRows items K =
      specPartition items K (totalRatioOf items / (K : ℚ)) ∧
    rowsItemsJoin (partitionRows items K) = items ∧
    (partitionRows items K).all (fun r => !r.items.isEmpty) = true ∧
    (partitionRows items K).length ≤ K := by
  refine ⟨by simp [partitionRows], ?_, partitionRows_join items K, ?_, ?_⟩
  · unfold partitionRows specPartition
    rw [if_neg (by omega), foldl_specStep_eq]
  · rw [List.all_eq_true]
    intro r hr
    unfold partitionRows at hr
    rw [if_neg (by omega)] at hr
    have := partitionGo_nonempty K _ items [] 0 [] (by simp) r hr
    simpa using this
  · exact partitionRows_length items K (by omega)

/-- C2 witness at a concrete input. -/
theorem c2_partition_witness :
    2 ≤ 2 ∧
    (partitionRows [Item.mk "x" 0 1] 1 =
        [⟨[Item.mk "x" 0 1], totalRatioOf [Item.mk "x" 0 1]⟩] ∧
      partitionRows [Item.mk "a" 0 1, Item.mk "b" 1 2, Item.mk "c" 2 1] 2 =
        specPartition [Item.mk "a" 0 1, Item.mk "b" 1 2, Item.mk "c" 2 1] 2
          (totalRatioOf [Item.mk "a" 0 1, Item.mk "b" 1 2, Item.mk "c" 2 1] /
            (2 : ℚ)) ∧
      rowsItemsJoin
          (partitionRows [Item.mk "a" 0 1, Item.mk "b" 1 2, Item.mk "c" 2 1] 2) =
        [Item.mk "a" 0 1, Item.mk "b" 1 2, Item.mk "c" 2 1] ∧
      (partitionRows [Item.mk "a" 0 1, Item.mk "b" 1 2, Item.mk "c" 2 1] 2).all
          (fun r => !r.items.isEmpty) = true ∧
      (partitionRows [Item.mk "a" 0 1, Item.mk "b" 1 2, Item.mk "c" 2 1] 2).length
        ≤ 2) :=
  ⟨by decide,
    c2_partition [Item.mk "a" 0 1, Item.mk "b" 1 2, Item.mk "c" 2 1]
      [Item.mk "x" 0 1] 2 (by decide)⟩

/-- C3: in every non-empty row whose ratio sum is positive and consistent,
all items share the row height `(containerWidth - (count - 1) * gap) /
sumRatio`, each width is the item ratio times that height, the x offsets
start at `0` and advance by width plus gap, and the last item's right edge
is exactly `containerWidth`. -/
theorem c3_row_geometry (cw gap : ℚ) (row : Row)
    (hne : row.items ≠ [])
    (hsum : row.sumRatio = (row.items.map Item.ratio).sum)
    (hpos : 0 < row.sumRatio)
    (hwide : ((row.items.length : ℚ) - 1) * gap < cw) :
    (buildRow cw gap row).height =
        (cw - ((row.items.length : ℚ) - 1) * gap) / row.sumRatio ∧
    (buildRow cw gap row).items.map RowItem.height =
        List.replicate row.items.length (buildRow cw gap row).height ∧
    (buildRow cw gap row).items.map RowItem.width =
        row.items.map (fun it => it.ratio * (buildRow cw gap row).height) ∧
    (buildRow cw gap row).items.map RowItem.x =
        cumX gap ((buildRow cw gap row).items.map RowItem.width) 0 ∧
    ((buildRow cw gap row).items.map fun it => it.x + it.width).getLast? =
      some cw := by
  refine ⟨rfl, buildRowGo_map_height _ _ _ _, buildRowGo_map_width _ _ _ _, ?_, ?_⟩
  · show (buildRowGo gap ((cw - ((row.items.length : ℚ) - 1) * gap) /
        row.sumRatio) row.items 0).map RowItem.x =
      cumX gap ((buildRowGo gap ((cw - ((row.items.length : ℚ) - 1) * gap) /
        row.sumRatio) row.items 0).map RowItem.width) 0
    rw [buildRowGo_map_width]
    exact buildRowGo_map_x _ _ _ _
  · exact buildRow_span cw gap row hne hsum (ne_of_gt hpos)

/-- C3 witness at a concrete input. -/
theorem c3_row_geometry_witness :
    (Row.mk [Item.mk "a" 0 1, Item.mk "b" 1 2] 3).items ≠ [] ∧
    (Row.mk [Item.mk "a" 0 1, Item.mk "b" 1 2] 3).sumRatio =
      ((Row.mk [Item.mk "a" 0 1, Item.mk "b" 1 2] 3).items.map Item.ratio).sum ∧
    (0 : ℚ) < (Row.mk [Item.mk "a" 0 1, Item.mk "b" 1 2] 3).sumRatio ∧
    (((Row.mk [Item.mk "a" 0 1, Item.mk "b" 1 2] 3).items.length : ℚ) - 1) * 10 <
      100 ∧
    (((buildRow 100 10 (Row.mk [Item.mk "a" 0 1, Item.mk "b" 1 2] 3)).items.map
        fun it => it.x + it.width).getLast? = some 100) :=
  ⟨by decide, by with_unfolding_all decide, by with_unfolding_all decide,
    by with_unfolding_all decide,
    (c3_row_geometry 100 10 (Row.mk [Item.mk "a" 0 1, Item.mk "b" 1 2] 3)
      (by decide) (by with_unfolding_all decide) (by with_unfolding_all decide)
      (by with_unfolding_all decide)).2.2.2.2⟩

/-- C4: with more than one row and initial total height below the container
height, the vertical gap is stretched by exactly the height deficit divided
by the row spacing count, making the recomputed total height equal the
container height; the fit never pushes a total height that was within the
container beyond it, and stacking leaves x, width and height untouched
whatever the vertical gap. -/
theorem c4_vertical_stretch (rL : List RowLayout) (gap ch : ℚ)
    (h1 : 1 < rL.length) (h2 : initTotalHeight rL gap < ch)
    (rL2 : List RowLayout) (gap2 ch2 : ℚ)
    (h3 : initTotalHeight rL2 gap2 ≤ ch2)
    (vgA vgB : ℚ) (rows3 : List RowLayout) (y3 : ℚ) :
    (fitVertical rL gap ch).1 =
        gap + (ch - initTotalHeight rL gap) / ((rL.length - 1 : ℕ) : ℚ) ∧
    (fitVertical rL gap ch).2 = ch ∧
    (fitVertical rL2 gap2 ch2).2 ≤ ch2 ∧
    (stackRows vgA rows3 y3).map (fun it => (it.x, it.width, it.height)) =
      (stackRows vgB rows3 y3).map (fun it => (it.x, it.width, it.height)) := by
  refine ⟨?_, ?_, fitVertical_le rL2 gap2 ch2 h3, stackRows_xwh vgA vgB rows3 y3 y3⟩
  · rw [fitVertical_eq_of_lt rL gap ch h1 h2]
  · rw [fitVertical_eq_of_lt rL gap ch h1 h2]

/-- C4 witness at a concrete input. -/
theorem c4_vertical_stretch_witness :
    1 < ([⟨100, []⟩, ⟨100, []⟩] : List RowLayout).length ∧
    initTotalHeight [⟨100, []⟩, ⟨100, []⟩] 10 < 300 ∧
    initTotalHeight [⟨100, []⟩, ⟨100, []⟩] 10 ≤ 300 ∧
    ((fitVertical [⟨100, []⟩, ⟨100, []⟩] 10 300).1 =
        10 + (300 - initTotalHeight [⟨100, []⟩, ⟨100, []⟩] 10) /
          ((([⟨100, []⟩, ⟨100, []⟩] : List RowLayout).length - 1 : ℕ) : ℚ) ∧
      (fitVertical [⟨100, []⟩, ⟨100, []⟩] 10 300).2 = 300 ∧
      (fitVertical [⟨100, []⟩, ⟨100, []⟩] 10 300).2 ≤ 300 ∧
      (stackRows 1 [⟨100, []⟩, ⟨100, []⟩] 0).map
          (fun it => (it.x, it.width, it.height)) =
        (stackRows 2 [⟨100, []⟩, ⟨100, []⟩] 0).map
          (fun it => (it.x, it.width, it.height))) :=
  ⟨by decide, by with_unfolding_all decide, by with_unfolding_all decide,
    c4_vertical_stretch [⟨100, []⟩, ⟨100, []⟩] 10 300 (by decide)
      (by with_unfolding_all decide) [⟨100, []⟩, ⟨100, []⟩] 10 300
      (by with_unfolding_all decide) 1 2 [⟨100, []⟩, ⟨100, []⟩] 0⟩

/-! Lemmas about the ratio resolution chain and ratio positivity. -/

theorem scaleToFit_eq (th cw ch : ℚ) :
    scaleToFit th cw ch =
      (if ch < th then ch / th else 1,
       (ch - th * (if ch < th then ch / th else 1)) / 2,
       (cw - cw * (if ch < th then ch / th else 1)) / 2) := rfl

theorem getAspectRatioFromUrl_nonneg (s : String) (u : ℚ)
    (h : getAspectRatioFromUrl s = some u) : 0 ≤ u := by
  simp only [getAspectRatioFromUrl, parsePicsumRev] at h
  repeat' split at h
  all_goals try exact Option.noConfusion h
  all_goals rw [Option.some.injEq] at h
  all_goals subst h
  all_goals positivity

theorem resolveRatio_pos (ratios : String → Option ℚ) (s : String)
    (hr : ∀ t r, ratios t = some r → 0 < r) : 0 < resolveRatio ratios s := by
  unfold resolveRatio orTruthy
  have hfall : (0 : ℚ) <
      match getAspectRatioFromUrl s with
      | some v => if v = 0 then 3 / 2 else v
      | none => 3 / 2 := by
    cases hurl : getAspectRatioFromUrl s with
    | none => norm_num
    | some v =>
      by_cases hv : v = 0
      · simp [hv]
      · have := getAspectRatioFromUrl_nonneg s v hurl
        simp only [if_neg hv]
        exact lt_of_le_of_ne this (Ne.symm hv)
  cases hmap : ratios s with
  | none => exact hfall
  | some v =>
    by_cases hv : v = 0
    · simpa [hv] using hfall
    · simpa [hv] using hr s v hmap

theorem mkItems_ratio_pos (images : List String) (ratios : String → Option ℚ)
    (hr : ∀ t r, ratios t = some r → 0 < r) :
    ∀ it ∈ mkItems images ratios, 0 < it.ratio := by
  intro it hit
  unfold mkItems at hit
  obtain ⟨p, _, rfl⟩ := List.mem_map.mp hit
  exact resolveRatio_pos ratios p.2 hr

theorem mkItems_ne_nil (images : List String) (ratios : String → Option ℚ)
    (h : images ≠ []) : mkItems images ratios ≠ [] := by
  intro hcontra
  have hlen := mkItems_length images ratios
  rw [hcontra] at hlen
  exact h (List.length_eq_zero.mp hlen.symm)

theorem totalRatio_pos (images : List String) (ratios : String → Option ℚ)
    (h : images ≠ []) (hr : ∀ t r, ratios t = some r → 0 < r) :
    0 < totalRatioOf (mkItems images ratios) := by
  refine List.sum_pos _ ?_ ?_
  · intro x hx
    obtain ⟨it, hit, rfl⟩ := List.mem_map.mp hx
    exact mkItems_ratio_pos images ratios hr it hit
  · simpa using mkItems_ne_nil images ratios h

theorem mem_items_of_mem_partitionRows (items : List Item) (K : ℕ) (r : Row)
    (hrow : r ∈ partitionRows items K) (it : Item) (hit : it ∈ r.items) :
    it ∈ items := by
  have hjoin := partitionRows_join items K
  rw [← hjoin]
  unfold rowsItemsJoin
  exact List.mem_flatten.mpr ⟨r.items, List.mem_map_of_mem Row.items hrow, hit⟩

/-- C5 counterexample: on the empty input the returned `topOffset` is the
literal `0`, not `(containerHeight - totalHeight * scale) / 2`, so the claim
fails when the input list is empty. -/
theorem c5_scaler_counterexample :
    ¬ ((computeMosaicLayout [] (fun _ => none) 1 1 0).topOffset =
        (1 - (computeMosaicLayout [] (fun _ => none) 1 1 0).totalHeight *
          (computeMosaicLayout [] (fun _ => none) 1 1 0).scale) / 2) := by
  with_unfolding_all decide

/-- C5 (amended to non-empty inputs): for every non-empty well-formed input
the scale lies in `(0, 1]`, equals `containerHeight / totalHeight` exactly
when the pre-scale total height overflows the container and `1` otherwise,
and the two centering offsets follow the stated formulas and are
non-negative. -/
theorem c5_scaler (images : List String) (ratios : String → Option ℚ)
    (cw ch gap : ℚ) (hne : images ≠ []) (hcw : 0 < cw) (hch : 0 < ch) :
    0 < (computeMosaicLayout images ratios cw ch gap).scale ∧
    (computeMosaicLayout images ratios cw ch gap).scale ≤ 1 ∧
    (computeMosaicLayout images ratios cw ch gap).scale =
      (if ch < (computeMosaicLayout images ratios cw ch gap).totalHeight then
        ch / (computeMosaicLayout images ratios cw ch gap).totalHeight else 1) ∧
    ((computeMosaicLayout images ratios cw ch gap).scale = 1 ↔
      (computeMosaicLayout images ratios cw ch gap).totalHeight ≤ ch) ∧
    (computeMosaicLayout images ratios cw ch gap).leftOffset =
      (cw - cw * (computeMosaicLayout images ratios cw ch gap).scale) / 2 ∧
    (computeMosaicLayout images ratios cw ch gap).topOffset =
      (ch - (computeMosaicLayout images ratios cw ch gap).totalHeight *
        (computeMosaicLayout images ratios cw ch gap).scale) / 2 ∧
    0 ≤ (computeMosaicLayout images ratios cw ch gap).leftOffset ∧
    0 ≤ (computeMosaicLayout images ratios cw ch gap).topOffset := by
  rw [computeMosaicLayout_eq _ _ _ _ _ hne]
  simp only [scaleToFit_eq]
  set th := rawTotalHeight images ratios cw ch gap with hth
  by_cases hover : ch < th
  · have hthpos : 0 < th := lt_trans hch hover
    have hs1 : ch / th ≤ 1 := (div_le_one hthpos).mpr (le_of_lt hover)
    have hsne : ch / th ≠ 1 := fun h1 =>
      (ne_of_lt hover) ((div_eq_one_iff_eq (ne_of_gt hthpos)).mp h1)
    refine ⟨?_, ?_, ?_, ?_, ?_, ?_, ?_, ?_⟩
    · simpa [hover] using div_pos hch hthpos
    · simpa [hover] using hs1
    · simp [hover]
    · simp only [if_pos hover]
      constructor
      · intro h1; exact absurd h1 hsne
      · intro hle; exact absurd (lt_of_lt_of_le hover hle) (lt_irrefl ch)
    · simp [hover]
    · simp [hover]
    · simp only [if_pos hover]
      have : cw * (ch / th) ≤ cw * 1 :=
        mul_le_mul_of_nonneg_left hs1 (le_of_lt hcw)
      rw [mul_one] at this
      have : 0 ≤ cw - cw * (ch / th) := by linarith
      positivity
    · simp only [if_pos hover]
      have : th * (ch / th) = ch := by
        field_simp
      rw [this]
      simp
  · push_neg at hover
    refine ⟨?_, ?_, ?_, ?_, ?_, ?_, ?_, ?_⟩
    · simp [not_lt.mpr hover]
    · simp [not_lt.mpr hover]
    · simp [not_lt.mpr hover]
    · simp [not_lt.mpr hover, hover]
    · simp [not_lt.mpr hover]
    · simp [not_lt.mpr hover]
    · simp [not_lt.mpr hover]
    · simp only [if_neg (not_lt.mpr hover), mul_one]
      have : 0 ≤ ch - th := by linarith
      positivity

/-- C5 witness at a concrete non-empty input. -/
theorem c5_scaler_witness :
    (["a", "b"] : List String) ≠ [] ∧ (0 : ℚ) < 400 ∧ (0 : ℚ) < 300 ∧
      (0 < (computeMosaicLayout ["a", "b"] (fun _ => none) 400 300 2).scale ∧
        (computeMosaicLayout ["a", "b"] (fun _ => none) 400 300 2).scale ≤ 1 ∧
        (computeMosaicLayout ["a", "b"] (fun _ => none) 400 300 2).scale =
          (if 300 <
              (computeMosaicLayout ["a", "b"] (fun _ => none) 400 300 2).totalHeight
            then 300 /
              (computeMosaicLayout ["a", "b"] (fun _ => none) 400 300 2).totalHeight
            else 1) ∧
        ((computeMosaicLayout ["a", "b"] (fun _ => none) 400 300 2).scale = 1 ↔
          (computeMosaicLayout ["a", "b"] (fun _ => none) 400 300 2).totalHeight
            ≤ 300) ∧
        (computeMosaicLayout ["a", "b"] (fun _ => none) 400 300 2).leftOffset =
          (400 - 400 *
            (computeMosaicLayout ["a", "b"] (fun _ => none) 400 300 2).scale) / 2 ∧
        (computeMosaicLayout ["a", "b"] (fun _ => none) 400 300 2).topOffset =
          (300 -
            (computeMosaicLayout ["a", "b"] (fun _ => none) 400 300 2).totalHeight *
            (computeMosaicLayout ["a", "b"] (fun _ => none) 400 300 2).scale) / 2 ∧
        0 ≤ (computeMosaicLayout ["a", "b"] (fun _ => none) 400 300 2).leftOffset ∧
        0 ≤ (computeMosaicLayout ["a", "b"] (fun _ => none) 400 300 2).topOffset) :=
  ⟨by decide, by decide, by decide,
    c5_scaler ["a", "b"] (fun _ => none) 400 300 2 (by decide) (by decide)
      (by decide)⟩

/-- C9: the layout reports raw pre-scale coordinates and total height, with
the scale/offset transform returned once alongside them; in particular a
scale strictly below one occurs exactly when the pre-scale total height
overflows the container. -/
theorem c9_raw_contract (images : List String) (ratios : String → Option ℚ)
    (cw ch gap : ℚ) (hne : images ≠ []) (hch : 0 < ch) :
    (computeMosaicLayout images ratios cw ch gap).items =
      rawLayoutItems images ratios cw ch gap ∧
    (computeMosaicLayout images ratios cw ch gap).totalHeight =
      rawTotalHeight images ratios cw ch gap ∧
    (computeMosaicLayout images ratios cw ch gap).scale =
      (scaleToFit (rawTotalHeight images ratios cw ch gap) cw ch).1 ∧
    (computeMosaicLayout images ratios cw ch gap).topOffset =
      (scaleToFit (rawTotalHeight images ratios cw ch gap) cw ch).2.1 ∧
    (computeMosaicLayout images ratios cw ch gap).leftOffset =
      (scaleToFit (rawTotalHeight images ratios cw ch gap) cw ch).2.2 ∧
    ((computeMosaicLayout images ratios cw ch gap).scale < 1 ↔
      ch < rawTotalHeight images ratios cw ch gap) := by
  rw [computeMosaicLayout_eq _ _ _ _ _ hne]
  refine ⟨rfl, rfl, rfl, rfl, rfl, ?_⟩
  simp only [scaleToFit_eq]
  set th := rawTotalHeight images ratios cw ch gap with hth
  by_cases hover : ch < th
  · have hthpos : 0 < th := lt_trans hch hover
    simp only [if_pos hover]
    exact ⟨fun _ => hover, fun _ => (div_lt_one hthpos).mpr hover⟩
  · simp only [if_neg hover]
    exact ⟨fun h1 => absurd h1 (lt_irrefl 1), fun hlt => absurd hlt hover⟩

/-- C9 witness at a concrete input. -/
theorem c9_raw_contract_witness :
    (["a", "b"] : List String) ≠ [] ∧ (0 : ℚ) < 300 ∧
      ((computeMosaicLayout ["a", "b"] (fun _ => none) 400 300 2).items =
          rawLayoutItems ["a", "b"] (fun _ => none) 400 300 2 ∧
        (computeMosaicLayout ["a", "b"] (fun _ => none) 400 300 2).totalHeight =
          rawTotalHeight ["a", "b"] (fun _ => none) 400 300 2 ∧
        (computeMosaicLayout ["a", "b"] (fun _ => none) 400 300 2).scale =
          (scaleToFit (rawTotalHeight ["a", "b"] (fun _ => none) 400 300 2)
            400 300).1 ∧
        (computeMosaicLayout ["a", "b"] (fun _ => none) 400 300 2).topOffset =
          (scaleToFit (rawTotalHeight ["a", "b"] (fun _ => none) 400 300 2)
            400 300).2.1 ∧
        (computeMosaicLayout ["a", "b"] (fun _ => none) 400 300 2).leftOffset =
          (scaleToFit (rawTotalHeight ["a", "b"] (fun _ => none) 400 300 2)
            400 300).2.2 ∧
        ((computeMosaicLayout ["a", "b"] (fun _ => none) 400 300 2).scale < 1 ↔
          300 < rawTotalHeight ["a", "b"] (fun _ => none) 400 300 2)) :=
  ⟨by decide, by decide,
    c9_raw_contract ["a", "b"] (fun _ => none) 400 300 2 (by decide) (by decide)⟩

/-- C10: under the preconditions (positive container, non-negative gap,
strictly positive mapped ratios) every row is non-empty with a positive
ratio sum equal to the sum of its item ratios, the chosen row count is
positive, the total ratio is positive, and the divisors of the guarded
divisions are non-zero where reached: no division in the pipeline divides
by zero. -/
theorem c10_no_div_by_zero (images : List String) (ratios : String → Option ℚ)
    (cw ch gap : ℚ) (hne : images ≠ []) (hcw : 0 < cw) (hch : 0 < ch)
    (hgap : 0 ≤ gap) (hr : ∀ t r, ratios t = some r → 0 < r) :
    ((rowsOf images ratios cw ch).all fun r =>
      !r.items.isEmpty &&
      decide (r.sumRatio = (r.items.map Item.ratio).sum) &&
      decide (0 < r.sumRatio)) = true ∧
    0 < chooseK (totalRatioOf (mkItems images ratios)) (cw / ch)
      (mkItems images ratios).length ∧
    0 < totalRatioOf (mkItems images ratios) ∧
    ch ≠ 0 ∧
    (ch < rawTotalHeight images ratios cw ch gap →
      rawTotalHeight images ratios cw ch gap ≠ 0) := by
  refine ⟨?_, ?_, totalRatio_pos images ratios hne hr, ne_of_gt hch, ?_⟩
  · rw [List.all_eq_true]
    intro r hrow
    have hmne := mkItems_ne_nil images ratios hne
    have h1 : r.items ≠ [] := partitionRows_nonempty _ _ hmne r hrow
    have h2 : r.sumRatio = (r.items.map Item.ratio).sum :=
      partitionRows_sums _ _ r hrow
    have h3 : 0 < r.sumRatio := by
      rw [h2]
      refine List.sum_pos _ ?_ (by simpa using h1)
      intro x hx
      obtain ⟨it, hit, rfl⟩ := List.mem_map.mp hx
      exact mkItems_ratio_pos images ratios hr it
        (mem_items_of_mem_partitionRows _ _ r hrow it hit)
    have h3' : 0 < (r.items.map Item.ratio).sum := by
      rw [← h2]; exact h3
    simp [h1, h2, h3, h3']
  · exact lt_of_lt_of_le Nat.one_pos (le_max_left _ _)
  · intro hover
    have : 0 < rawTotalHeight images ratios cw ch gap := lt_trans hch hover
    exact ne_of_gt this

/-- C10 witness at a concrete input. -/
theorem c10_no_div_by_zero_witness :
    (["a", "b", "c"] : List String) ≠ [] ∧ (0 : ℚ) < 400 ∧ (0 : ℚ) < 300 ∧
      (0 : ℚ) ≤ 2 ∧
      (((rowsOf ["a", "b", "c"] (fun _ => none) 400 300).all fun r =>
          !r.items.isEmpty &&
          decide (r.sumRatio = (r.items.map Item.ratio).sum) &&
          decide (0 < r.sumRatio)) = true ∧
        0 < chooseK (totalRatioOf (mkItems ["a", "b", "c"] (fun _ => none)))
          ((400 : ℚ) / 300) (mkItems ["a", "b", "c"] (fun _ => none)).length ∧
        0 < totalRatioOf (mkItems ["a", "b", "c"] (fun _ => none)) ∧
        (300 : ℚ) ≠ 0 ∧
        (300 < rawTotalHeight ["a", "b", "c"] (fun _ => none) 400 300 2 →
          rawTotalHeight ["a", "b", "c"] (fun _ => none) 400 300 2 ≠ 0)) :=
  ⟨by decide, by decide, by decide, by decide,
    c10_no_div_by_zero ["a", "b", "c"] (fun _ => none) 400 300 2 (by decide)
      (by decide) (by decide) (by decide) (fun t r h => Option.noConfusion h)⟩

/-! Lemmas about the URL ratio parser. -/

theorem takeWhile_dropWhile_append (p : Char → Bool) :
    ∀ (xs : List Char) (y : Char) (ys : List Char),
      (∀ c ∈ xs, p c = true) → p y = false →
      (xs ++ y :: ys).takeWhile p = xs ∧ (xs ++ y :: ys).dropWhile p = y :: ys := by
  intro xs
  induction xs with
  | nil =>
    intro y ys _ hy
    simp [List.takeWhile_cons, List.dropWhile_cons, hy]
  | cons x xs ih =>
    intro y ys hall hy
    have hx : p x = true := hall x (by simp)
    have hrest := ih y ys (fun c hc => hall c (by simp [hc])) hy
    simp [List.takeWhile_cons, List.dropWhile_cons, hx, hrest.1, hrest.2]

theorem valLSB_reverse (ds : List Char) : valLSB ds.reverse = valMSB ds := by
  unfold valLSB valMSB
  rw [List.foldr_reverse]

theorem hasPicsumBefore_construct (pre mid : List Char)
    (hmid : mid.all regexDotChar = true) :
    hasPicsumBefore (pre ++ (picsumTag ++ mid)) = true := by
  unfold hasPicsumBefore
  rw [List.any_eq_true]
  refine ⟨picsumTag ++ mid, ?_, ?_⟩
  · exact (List.mem_tails _ _).mpr (List.suffix_append pre (picsumTag ++ mid))
  · rw [Bool.and_eq_true]
    constructor
    · rw [ List.isPrefixOf_iff_prefix]
      exact List.prefix_append picsumTag mid
    · rw [List.drop_left]
      exact hmid

theorem parsePicsumRev_eq (dw dh tail2 : List Char)
    (hdw : dw ≠ []) (hdh : dh ≠ [])
    (hdwd : ∀ c ∈ dw, c.isDigit = true) (hdhd : ∀ c ∈ dh, c.isDigit = true) :
    parsePicsumRev (dh.reverse ++ '/' :: (dw.reverse ++ '/' :: tail2)) =
      if hasPicsumBefore tail2.reverse then
        (if valMSB dh = 0 then none
          else some ((valMSB dw : ℚ) / (valMSB dh : ℚ)))
      else none := by
  have hdsall : ∀ c ∈ dh.reverse, Char.isDigit c = true := fun c hc =>
    hdhd c (List.mem_reverse.mp hc)
  have hwsall : ∀ c ∈ dw.reverse, Char.isDigit c = true := fun c hc =>
    hdwd c (List.mem_reverse.mp hc)
  have hslash : Char.isDigit '/' = false := by decide
  have h1 := takeWhile_dropWhile_append Char.isDigit dh.reverse '/'
    (dw.reverse ++ '/' :: tail2) hdsall hslash
  have h2 := takeWhile_dropWhile_append Char.isDigit dw.reverse '/'
    tail2 hwsall hslash
  simp only [parsePicsumRev]
  rw [h1.1, h1.2]
  rw [if_neg (by simpa using hdh)]
  rw [if_neg (by simp)]
  simp only [List.tail_cons]
  rw [h2.1, h2.2]
  rw [if_neg (by simpa using hdw)]
  rw [if_neg (by simp)]
  simp only [List.tail_cons]
  rw [valLSB_reverse, valLSB_reverse]

theorem getAspectRatioFromUrl_mk (pre mid dw dh : List Char) (trail : Bool)
    (hdw : dw ≠ []) (hdh : dh ≠ [])
    (hdwd : ∀ c ∈ dw, c.isDigit = true) (hdhd : ∀ c ∈ dh, c.isDigit = true)
    (hmid : mid.all regexDotChar = true) :
    getAspectRatioFromUrl (mkPicsumSrc pre mid dw dh trail) =
      if valMSB dh = 0 then none
      else some ((valMSB dw : ℚ) / (valMSB dh : ℚ)) := by
  obtain ⟨d, ds, hds⟩ := List.exists_cons_of_ne_nil
    ((List.reverse_ne_nil_iff).mpr hdh)
  have hrev : (mkPicsumSrc pre mid dw dh trail).data.reverse =
      (if trail then ['/'] else []) ++
        (dh.reverse ++ '/' :: (dw.reverse ++ '/' ::
          (mid.reverse ++ (picsumTag.reverse ++ pre.reverse)))) := by
    cases trail <;>
      simp [mkPicsumSrc, List.reverse_append, List.reverse_cons, List.append_assoc]
  simp only [getAspectRatioFromUrl]
  rw [hrev]
  have hrev1 :
      (if ((if trail then ['/'] else []) ++
          (dh.reverse ++ '/' :: (dw.reverse ++ '/' ::
            (mid.reverse ++ (picsumTag.reverse ++ pre.reverse))))).head? =
            some '/' then
        ((if trail then ['/'] else []) ++
          (dh.reverse ++ '/' :: (dw.reverse ++ '/' ::
            (mid.reverse ++ (picsumTag.reverse ++ pre.reverse))))).tail
      else
        (if trail then ['/'] else []) ++
          (dh.reverse ++ '/' :: (dw.reverse ++ '/' ::
            (mid.reverse ++ (picsumTag.reverse ++ pre.reverse))))) =
      dh.reverse ++ '/' :: (dw.reverse ++ '/' ::
        (mid.reverse ++ (picsumTag.reverse ++ pre.reverse))) := by
    cases trail with
    | true => simp
    | false =>
      have hd : Char.isDigit d = true := by
        refine hdhd d (List.mem_reverse.mp ?_)
        rw [hds]; simp
      have hdne : ¬ d = '/' := by
        intro hcontra
        rw [hcontra] at hd
        exact absurd hd (by decide)
      simp only [Bool.false_eq_true, if_false, List.nil_append, hds,
        List.cons_append, List.head?_cons]
      rw [if_neg (by simpa using hdne)]
  rw [hrev1, parsePicsumRev_eq dw dh _ hdw hdh hdwd hdhd]
  have hM : (mid.reverse ++ (picsumTag.reverse ++ pre.reverse)).reverse =
      pre ++ (picsumTag ++ mid) := by
    simp [List.reverse_append, List.append_assoc]
  rw [hM, if_pos (hasPicsumBefore_construct pre mid hmid)]

/-- C6: the ratio for an item is resolved purely and totally by the priority
chain: a present non-zero mapped value wins; otherwise a ratio parsed from a
`picsum.photos` style identifier ending in `/<w>/<h>` (with an optional
trailing slash) as `w / h`, where a failed pattern or `h = 0` counts as
absent and a parsed `0` also falls through; otherwise the constant `3 / 2`. -/
theorem c6_ratio_chain
    (ratios1 : String → Option ℚ) (src1 : String) (r : ℚ)
    (h1 : ratios1 src1 = some r) (h2 : r ≠ 0)
    (ratios2 : String → Option ℚ) (src2 : String) (u : ℚ)
    (h3 : ratios2 src2 = none ∨ ratios2 src2 = some 0)
    (h4 : getAspectRatioFromUrl src2 = some u) (h5 : u ≠ 0)
    (ratios3 : String → Option ℚ) (src3 : String)
    (h6 : ratios3 src3 = none ∨ ratios3 src3 = some 0)
    (h7 : getAspectRatioFromUrl src3 = none ∨
      getAspectRatioFromUrl src3 = some 0)
    (pre mid dw dh : List Char) (trail : Bool)
    (hdw : dw ≠ []) (hdh : dh ≠ [])
    (hdwd : dw.all Char.isDigit = true) (hdhd : dh.all Char.isDigit = true)
    (hmid : mid.all regexDotChar = true) :
    resolveRatio ratios1 src1 = r ∧
    resolveRatio ratios2 src2 = u ∧
    resolveRatio ratios3 src3 = 3 / 2 ∧
    getAspectRatioFromUrl (mkPicsumSrc pre mid dw dh trail) =
      (if valMSB dh = 0 then none
        else some ((valMSB dw : ℚ) / (valMSB dh : ℚ))) := by
  refine ⟨?_, ?_, ?_, ?_⟩
  · unfold resolveRatio orTruthy
    rw [h1]
    simp [h2]
  · unfold resolveRatio orTruthy
    rcases h3 with h3 | h3 <;> rw [h3] <;> rw [h4] <;> simp [h5]
  · unfold resolveRatio orTruthy
    rcases h6 with h6 | h6 <;> rw [h6] <;>
      (rcases h7 with h7 | h7 <;> rw [h7] <;> simp)
  · exact getAspectRatioFromUrl_mk pre mid dw dh trail hdw hdh
      (List.all_eq_true.mp hdwd) (List.all_eq_true.mp hdhd) hmid

/-- C6 witness at concrete inputs: a truthy measured ratio wins; a Picsum
style URL supplies `200 / 300`; an unparseable source falls back to `3 / 2`;
and a constructed identifier with zero height parses to nothing. -/
theorem c6_ratio_chain_witness :
    ((fun _ => some 7 : String → Option ℚ) "a" = some 7 ∧ (7 : ℚ) ≠ 0 ∧
      (fun _ => none : String → Option ℚ) "https://picsum.photos/id/237/200/300" =
        none ∧
      getAspectRatioFromUrl "https://picsum.photos/id/237/200/300" =
        some (2 / 3) ∧ (2 / 3 : ℚ) ≠ 0) ∧
    (resolveRatio (fun _ => some 7) "a" = 7 ∧
      resolveRatio (fun _ => none) "https://picsum.photos/id/237/200/300" =
        2 / 3 ∧
      resolveRatio (fun _ => none) "hello" = 3 / 2 ∧
      getAspectRatioFromUrl
          (mkPicsumSrc "https://".data "id/9".data "12".data "0".data false) =
        (if valMSB "0".data = 0 then none
          else some ((valMSB "12".data : ℚ) / (valMSB "0".data : ℚ)))) :=
  ⟨⟨rfl, by decide, rfl, by with_unfolding_all decide, by with_unfolding_all decide⟩,
    c6_ratio_chain (fun _ => some 7) "a" 7 rfl (by decide)
      (fun _ => none) "https://picsum.photos/id/237/200/300" (2 / 3)
      (Or.inl rfl) (by with_unfolding_all decide) (by with_unfolding_all decide)
      (fun _ => none) "hello" (Or.inl rfl)
      (Or.inl (by with_unfolding_all decide))
      "https://".data "id/9".data "12".data "0".data false
      (by decide) (by decide) (by decide) (by decide) (by decide)⟩

/-! Lemmas for the row-count estimate: the integer square root, its
correspondence with the real square root, and the rounded value. -/

theorem isqrtAux_bounds :
    ∀ (fuel n : ℕ), n ≤ fuel →
      isqrtAux fuel n * isqrtAux fuel n ≤ n ∧
        n < (isqrtAux fuel n + 1) * (isqrtAux fuel n + 1) := by
  intro fuel
  induction fuel with
  | zero =>
    intro n hn
    interval_cases n
    simp [isqrtAux]
  | succ fuel ih =>
    intro n hn
    by_cases h0 : n = 0
    · subst h0
      simp [isqrtAux]
    · have hrec : n / 4 ≤ fuel := by
        have h4 : n / 4 < n := Nat.div_lt_self (Nat.pos_of_ne_zero h0) (by norm_num)
        omega
      obtain ⟨ihl, ihr⟩ := ih (n / 4) hrec
      set s := isqrtAux fuel (n / 4) with hs
      have hlow : 2 * s * (2 * s) ≤ n := by
        have h1 : 4 * (s * s) ≤ 4 * (n / 4) := Nat.mul_le_mul_left 4 ihl
        have h2 : 4 * (n / 4) ≤ n := by
          have := Nat.div_mul_le_self n 4
          omega
        calc 2 * s * (2 * s) = 4 * (s * s) := by ring
        _ ≤ 4 * (n / 4) := h1
        _ ≤ n := h2
      have hhigh : n < (2 * s + 2) * (2 * s + 2) := by
        have h1 : 4 * (n / 4 + 1) ≤ 4 * ((s + 1) * (s + 1)) :=
          Nat.mul_le_mul_left 4 ihr
        have h2 : n < 4 * (n / 4 + 1) := by
          have := Nat.div_add_mod n 4
          have := Nat.mod_lt n (show 0 < 4 by norm_num)
          omega
        calc n < 4 * (n / 4 + 1) := h2
        _ ≤ 4 * ((s + 1) * (s + 1)) := h1
        _ = (2 * s + 2) * (2 * s + 2) := by ring
      have hunfold : isqrtAux (fuel + 1) n =
          if (2 * s + 1) * (2 * s + 1) ≤ n then 2 * s + 1 else 2 * s := by
        simp only [isqrtAux, if_neg h0]
      rw [hunfold]
      by_cases hcase : (2 * s + 1) * (2 * s + 1) ≤ n
      · rw [if_pos hcase]
        refine ⟨hcase, ?_⟩
        have : 2 * s + 1 + 1 = 2 * s + 2 := rfl
        rw [this]
        exact hhigh
      · rw [if_neg hcase]
        exact ⟨hlow, Nat.lt_of_not_le hcase⟩


theorem isqrt_le (n : ℕ) : isqrt n * isqrt n ≤ n :=
  (isqrtAux_bounds n n le_rfl).1

theorem lt_isqrt_succ (n : ℕ) : n < (isqrt n + 1) * (isqrt n + 1) :=
  (isqrtAux_bounds n n le_rfl).2

theorem natFloor_sqrt_eq_isqrt (N : ℕ) : ⌊Real.sqrt (N : ℝ)⌋₊ = isqrt N := by
  rw [Nat.floor_eq_iff (Real.sqrt_nonneg _)]
  constructor
  · rw [Real.le_sqrt (by positivity) (by positivity)]
    have h1 : ((isqrt N : ℝ)) * (isqrt N) ≤ (N : ℝ) := by
      exact_mod_cast isqrt_le N
    nlinarith [h1]
  · rw [Real.sqrt_lt' (by positivity)]
    have h2 : (N : ℝ) < ((isqrt N : ℝ) + 1) * ((isqrt N : ℝ) + 1) := by
      exact_mod_cast lt_isqrt_succ N
    nlinarith [h2]


theorem ratRoundSqrt_eq_round_sqrt (q : ℚ) (hq : 0 ≤ q) :
    (ratRoundSqrt q : ℤ) = round (Real.sqrt ((q : ℝ))) := by
  have hbpos : 0 < q.den := q.pos
  have hnumnn : (0 : ℤ) ≤ q.num := Rat.num_nonneg.mpr hq
  set a : ℕ := q.num.toNat with ha
  set b : ℕ := q.den with hb
  have hbQ : (0 : ℝ) < (b : ℝ) := by exact_mod_cast hbpos
  have hnum : (q.num : ℝ) = (a : ℝ) := by
    rw [ha]
    exact_mod_cast congrArg (fun z : ℤ => (z : ℝ)) (Int.toNat_of_nonneg hnumnn).symm
  have hcast : (q : ℝ) = (a : ℝ) / (b : ℝ) := by
    rw [Rat.cast_def, hnum, hb]
  have hsqrt : Real.sqrt ((q : ℝ)) = Real.sqrt (((a * b : ℕ) : ℝ)) / (b : ℝ) := by
    rw [hcast]
    rw [show ((a : ℝ) / (b : ℝ)) = ((a * b : ℕ) : ℝ) / ((b : ℝ) ^ 2) by
      push_cast; field_simp; ring]
    rw [Real.sqrt_div (by positivity) _]
    congr 1
    rw [show ((b : ℝ) ^ 2) = (b : ℝ) * (b : ℝ) by ring,
      Real.sqrt_mul_self (by positivity)]
  set m := isqrt (4 * (a * b)) with hm
  have hmfloor : ⌊Real.sqrt (((4 * (a * b) : ℕ) : ℝ))⌋₊ = m :=
    natFloor_sqrt_eq_isqrt _
  have hmle : (m : ℝ) ≤ Real.sqrt (((4 * (a * b) : ℕ) : ℝ)) := by
    rw [← hmfloor]
    exact Nat.floor_le (Real.sqrt_nonneg _)
  have hmlt : Real.sqrt (((4 * (a * b) : ℕ) : ℝ)) < (m : ℝ) + 1 := by
    rw [← hmfloor]
    exact Nat.lt_floor_add_one _
  have h2sqrt : Real.sqrt (((4 * (a * b) : ℕ) : ℝ)) =
      2 * Real.sqrt (((a * b : ℕ) : ℝ)) := by
    push_cast
    rw [show ((4 : ℝ) * ((a : ℝ) * (b : ℝ))) = (2 : ℝ) ^ 2 * ((a : ℝ) * (b : ℝ))
      by ring]
    rw [Real.sqrt_mul (by positivity), Real.sqrt_sq (by norm_num)]
  set t := Real.sqrt (((a * b : ℕ) : ℝ)) with ht
  have htnn : 0 ≤ t := Real.sqrt_nonneg _
  rw [h2sqrt] at hmle hmlt
  set r := (m + b) / (2 * b) with hr
  have hdiv1 : 2 * b * r ≤ m + b := by
    rw [hr]
    calc 2 * b * ((m + b) / (2 * b)) = (m + b) / (2 * b) * (2 * b) := by ring
    _ ≤ m + b := Nat.div_mul_le_self _ _
  have hdiv2 : m + b < 2 * b * (r + 1) := by
    have hmod := Nat.div_add_mod (m + b) (2 * b)
    rw [← hr] at hmod
    have hmod2 : (m + b) % (2 * b) < 2 * b := Nat.mod_lt _ (by omega)
    calc m + b = 2 * b * r + (m + b) % (2 * b) := hmod.symm
    _ < 2 * b * r + 2 * b := by omega
    _ = 2 * b * (r + 1) := by ring
  have hfold : ratRoundSqrt q = r := by
    rw [hr, hm, ha, hb]
    rfl
  rw [hfold, hsqrt, round_eq]
  have hcomb : t / (b : ℝ) + 1 / 2 = (2 * t + b) / (2 * b) := by
    field_simp
    ring
  rw [hcomb]
  symm
  rw [Int.floor_eq_iff]
  have hd1R : (2 : ℝ) * b * r ≤ (m : ℝ) + b := by exact_mod_cast hdiv1
  have hd2R : (m : ℝ) + b + 1 ≤ 2 * b * (r + 1) := by
    have hstep : m + b + 1 ≤ 2 * b * (r + 1) := hdiv2
    exact_mod_cast hstep
  constructor
  · push_cast
    rw [le_div_iff₀ (by positivity : (0 : ℝ) < 2 * b)]
    nlinarith [hmle, hd1R]
  · push_cast
    rw [div_lt_iff₀ (by positivity : (0 : ℝ) < 2 * b)]
    nlinarith [hmlt, hd2R]


theorem chooseK_eq_round_sqrt (tr cr : ℚ) (n : ℕ) (hq : 0 ≤ tr / cr) :
    (chooseK tr cr n : ℤ) =
      max 1 (min (round (Real.sqrt (((tr / cr : ℚ) : ℝ)))) (n : ℤ)) := by
  unfold chooseK
  have hcast : ((0 : ℚ) : ℝ) ≤ ((tr / cr : ℚ) : ℝ) := by exact_mod_cast hq
  rw [show ((0 : ℚ) : ℝ) = (0 : ℝ) by norm_cast] at hcast
  rw [← ratRoundSqrt_eq_round_sqrt _ hq]
  push_cast
  rfl


/-- C7: for every non-empty input with a positive container aspect ratio
(and positive measured ratios), the chosen row count equals
`round(sqrt(totalRatio / containerAspectRatio))` clamped to
`[1, itemCount]`. -/
theorem c7_row_count (images : List String) (ratios : String → Option ℚ)
    (cw ch : ℚ) (hne : images ≠ []) (hcw : 0 < cw) (hch : 0 < ch)
    (hr : ∀ t r, ratios t = some r → 0 < r) :
    (chooseK (totalRatioOf (mkItems images ratios)) (cw / ch)
        (mkItems images ratios).length : ℤ) =
      max 1 (min (round (Real.sqrt
          (((totalRatioOf (mkItems images ratios) / (cw / ch) : ℚ) : ℝ))))
        (images.length : ℤ)) := by
  have htr : 0 < totalRatioOf (mkItems images ratios) :=
    totalRatio_pos images ratios hne hr
  have hcr : 0 < cw / ch := div_pos hcw hch
  have hq : 0 ≤ totalRatioOf (mkItems images ratios) / (cw / ch) :=
    le_of_lt (div_pos htr hcr)
  rw [chooseK_eq_round_sqrt _ _ _ hq, mkItems_length]

/-- C7 witness at a concrete input. -/
theorem c7_row_count_witness :
    (["a", "b", "c"] : List String) ≠ [] ∧ (0 : ℚ) < 400 ∧ (0 : ℚ) < 300 ∧
      (chooseK (totalRatioOf (mkItems ["a", "b", "c"] (fun _ => none)))
          ((400 : ℚ) / 300)
          (mkItems ["a", "b", "c"] (fun _ => none)).length : ℤ) =
        max 1 (min (round (Real.sqrt
            (((totalRatioOf (mkItems ["a", "b", "c"] (fun _ => none)) /
              ((400 : ℚ) / 300) : ℚ) : ℝ))))
          ((["a", "b", "c"] : List String).length : ℤ)) :=
  ⟨by decide, by decide, by decide,
    c7_row_count ["a", "b", "c"] (fun _ => none) 400 300 (by decide)
      (by decide) (by decide) (fun t r h => Option.noConfusion h)⟩

/-- C8: for every ratios mapping, container width, container height and gap,
`computeMosaicLayout` on an empty image list returns exactly
`{ items := [], totalHeight := 0, scale := 1, topOffset := 0,
leftOffset := 0 }` and raises no failure. -/
theorem c8_empty_input (ratios : String → Option ℚ) (cw ch gap : ℚ) :
    computeMosaicLayout [] ratios cw ch gap =
      ⟨[], 0, 1, 0, 0⟩ := rfl

end Mosaic
